import Mathlib

/-!
Verification of the consensus IP pool state machine
(`cmd/natc/ippool/consensusippool.go`).

The Go code keeps, per peer (`tailcfg.NodeID`), a forward map from domain
to address (`domainToAddr`) and a reverse map from address to a
`whereWhen` record (`addrToDomain`).  Mutations happen only inside the
raft `Apply` entrypoint, via `applyCheckoutAddr` and `applyMarkLastUsed`;
reads go through `retryDomainLookup` / `DomainForIP`.

Shallow embedding conventions:
* `netip.Addr` is modelled as `Nat` (addresses are comparable/orderable
  values; the `IsValid` guard in `unusedIPV4` is omitted because the
  embedding only represents valid addresses).
* `tailcfg.NodeID` is `Nat`, domains are `String`, `time.Time` is `Nat`
  (with `Before` = `<` and `After` = `>`).
* Go maps (both plain maps and `syncs.Map`) are association lists with
  first-occurrence lookup, in-place replacement on insert and filtering
  on delete, so that storing an identical value leaves the list
  syntactically unchanged, mirroring Go map object identity.
* `time.Sleep`, logging and goroutine scheduling have no state effect;
  sleeps are accounted for by an explicit milliseconds counter.
-/

namespace IPPool

/-- Association-list map mirroring a Go map. -/
abbrev Map (α β : Type) : Type := List (α × β)

namespace Map

variable {α β : Type} [DecidableEq α]

/-- Lookup: first occurrence of the key wins. -/
def find : Map α β → α → Option β
  | [], _ => none
  | (k, v) :: rest, k' => if k' = k then some v else find rest k'

/-- Insert/overwrite: replaces the first occurrence in place, appends when
absent (mirrors `m[k] = v` on a Go map). -/
def insert : Map α β → α → β → Map α β
  | [], k, v => [(k, v)]
  | (k', v') :: rest, k, v =>
      if k = k' then (k, v) :: rest else (k', v') :: insert rest k v

/-- Delete (mirrors `delete(m, k)` on a Go map). -/
def erase : Map α β → α → Map α β
  | [], _ => []
  | (k', v') :: rest, k =>
      if k' = k then erase rest k else (k', v') :: erase rest k

end Map

/-- `whereWhen` from the source: which domain an address maps to and when
it was last used. -/
structure whereWhen where
  Domain : String
  LastUsed : Nat
  deriving DecidableEq, Repr

/-- `consensusPerPeerState`: the per-peer forward and reverse maps. -/
structure consensusPerPeerState where
  domainToAddr : Map String Nat
  addrToDomain : Map Nat whereWhen
  deriving DecidableEq, Repr

/-- The empty per-peer state created on first checkout for a peer
(`&consensusPerPeerState{addrToDomain: &syncs.Map[...]{}}`). -/
def emptyPeerState : consensusPerPeerState := ⟨[], []⟩

/-- `perPeerMap`: the full replicated pool state, peer id to peer state. -/
def PoolState : Type := Map Nat consensusPerPeerState

/-- The pool starts empty (`NewConsensusIPPool`). -/
def emptyPool : PoolState := []

/-- The address set, as the list of `(From, To)` ranges returned by
`ipset.Ranges()`, iterated in the order Go iterates them. -/
abbrev IPSetRanges : Type := List (Nat × Nat)

/-- The inner loop of `unusedIPV4`: walks one range from `ip` while
`toIP.Compare(ip) != -1` (i.e. while `ip ≤ toIP`), returning the first
address that is unrecorded (`!ok`) or expired
(`ww.LastUsed.Before(reuseDeadline)`), together with the `wasInUse` flag
and the previous domain. -/
def scanRange (ps : consensusPerPeerState) (reuseDeadline : Nat) :
    Nat → Nat → Option (Nat × Bool × String)
  | ip, toIP =>
    if _h : toIP < ip then none
    else
      match Map.find ps.addrToDomain ip with
      | none => some (ip, false, "")
      | some ww =>
          if ww.LastUsed < reuseDeadline then some (ip, true, ww.Domain)
          else scanRange ps reuseDeadline (ip + 1) toIP
  termination_by ip toIP => toIP + 1 - ip

/-- `unusedIPV4`: finds the next unused or expired address in the pool,
scanning the ranges in order; `Except.error` is the
`errors.New("ip pool exhausted")` return. -/
def unusedIPV4 (ps : consensusPerPeerState) (ipset : IPSetRanges)
    (reuseDeadline : Nat) : Except String (Nat × Bool × String) :=
  match ipset with
  | [] => Except.error "ip pool exhausted"
  | (lo, hi) :: rest =>
      match scanRange ps reuseDeadline lo hi with
      | some r => Except.ok r
      | none => unusedIPV4 ps rest reuseDeadline

/-- The allocation tail of `applyCheckoutAddr` (everything after the
fast-path check): scan for an address, record the forward entry, delete a
reused address's previous forward entry, store the reverse entry.  `ps` is
the peer state already present in (or just stored into) `perPeerMap`. -/
def checkoutAddrAlloc (ipp : IPSetRanges) (nid : Nat) (domain : String)
    (reuseDeadline updatedAt : Nat) (ps : consensusPerPeerState)
    (pool : PoolState) : Except String Nat × PoolState :=
  match unusedIPV4 ps ipp reuseDeadline with
  | Except.error e => (Except.error e, Map.insert pool nid ps)
  | Except.ok (addr, wasInUse, previousDomain) =>
      let ps := { ps with domainToAddr := Map.insert ps.domainToAddr domain addr }
      let ps := if wasInUse then
          { ps with domainToAddr := Map.erase ps.domainToAddr previousDomain }
        else ps
      let ps := { ps with
        addrToDomain := Map.insert ps.addrToDomain addr ⟨domain, updatedAt⟩ }
      (Except.ok addr, Map.insert pool nid ps)

/-- `applyCheckoutAddr`: the checkout command handler.  Loads (or lazily
creates) the peer state, takes the fast path when the forward entry's
address still has a reverse entry, otherwise allocates.  Because the Go
peer state is a pointer already stored in `perPeerMap`, every path
re-stores the (possibly mutated) peer state into the pool. -/
def applyCheckoutAddr (ipp : IPSetRanges) (nid : Nat) (domain : String)
    (reuseDeadline updatedAt : Nat) (pool : PoolState) :
    Except String Nat × PoolState :=
  let ps := match Map.find pool nid with
    | some ps => ps
    | none => emptyPeerState
  match Map.find ps.domainToAddr domain with
  | some existing =>
      match Map.find ps.addrToDomain existing with
      | some ww =>
          let ww := { ww with LastUsed := updatedAt }
          let ps := { ps with
            addrToDomain := Map.insert ps.addrToDomain existing ww }
          (Except.ok existing, Map.insert pool nid ps)
      | none =>
          -- "applyCheckoutAddr: data out of sync, allocating new IP"
          checkoutAddrAlloc ipp nid domain reuseDeadline updatedAt ps pool
  | none => checkoutAddrAlloc ipp nid domain reuseDeadline updatedAt ps pool

/-- `applyMarkLastUsed`: the mark command handler with its four no-op
guards (peer unknown, address untracked, domain mismatch, stored
`LastUsed.After(updatedAt)`).  The Go function always returns `nil`, so
the embedding returns only the state. -/
def applyMarkLastUsed (nid : Nat) (addr : Nat) (domain : String)
    (updatedAt : Nat) (pool : PoolState) : PoolState :=
  match Map.find pool nid with
  | none => pool
  | some ps =>
      match Map.find ps.addrToDomain addr with
      | none => pool
      | some ww =>
          if ww.Domain ≠ domain then pool
          else if updatedAt < ww.LastUsed then pool
          else
            Map.insert pool nid { ps with
              addrToDomain :=
                Map.insert ps.addrToDomain addr { ww with LastUsed := updatedAt } }

/-- The `timeToWait` computation in `retryDomainLookup`:
`timeToWait := 100; for i := 0; i < n; i++ { timeToWait *= 2 }`. -/
def timeToWait (n : Nat) : Nat :=
  (List.range n).foldl (fun t _ => t * 2) 100

/-- Observable outcome of one full `retryDomainLookup` call: the returned
value, how many lookup attempts were made (`Load` probes), and the total
milliseconds passed to `time.Sleep`. -/
structure retryStats where
  result : Option whereWhen
  attempts : Nat
  sleptMs : Nat
  deriving DecidableEq, Repr

/-- One lookup attempt of `retryDomainLookup`: load the peer state, then
load the address's `whereWhen` from it (`none` when either load misses). -/
def localLookup (pool : PoolState) (fromNid addr : Nat) : Option whereWhen :=
  match Map.find pool fromNid with
  | some ps => Map.find ps.addrToDomain addr
  | none => none

/-- `retryDomainLookup`: one attempt per call; on a miss with `n > 4` give
up, otherwise sleep `timeToWait n` ms and recurse with `n+1`.  `poolAt k`
is the local replicated pool state observed by attempt number `k` (the
state evolves concurrently with the retries); the peer-state and
address lookups of the source are both performed against it. -/
def retryDomainLookup (poolAt : Nat → PoolState) (fromNid addr : Nat)
    (n : Nat) : retryStats :=
  match localLookup (poolAt n) fromNid addr with
  | some ww => ⟨some ww, 1, 0⟩
  | none =>
      if _h : n > 4 then ⟨none, 1, 0⟩
      else
        let rest := retryDomainLookup poolAt fromNid addr (n + 1)
        ⟨rest.result, rest.attempts + 1, timeToWait n + rest.sleptMs⟩
  termination_by 5 - n

/-- Exit status of the fire-and-forget refresh goroutine spawned by
`DomainForIP`. `panicked` is a Go `panic(err)`: it crashes the process. -/
inductive GoroutineExit where
  | returned
  | panicked (msg : String)
  deriving DecidableEq, Repr

/-- The body of the goroutine `DomainForIP` spawns:
`err := ipp.markLastUsed(...); if err != nil { panic(err) }`.
`markLastUsedErr` is the error returned by the consensus submission of
the `markLastUsed` command (external input to this core). -/
def refreshGoroutine (markLastUsedErr : Option String) : GoroutineExit :=
  match markLastUsedErr with
  | some e => GoroutineExit.panicked e
  | none => GoroutineExit.returned

/-- `DomainForIP`: resolves an address to a domain via
`retryDomainLookup`, returning `("", false)` on a miss; on a hit it
returns `(ww.Domain, true)` and spawns the refresh goroutine (whose exit
is reported alongside; `none` means no goroutine was spawned). -/
def DomainForIP (poolAt : Nat → PoolState) (fromNid addr : Nat)
    (markLastUsedErr : Option String) :
    (String × Bool) × Option GoroutineExit :=
  match (retryDomainLookup poolAt fromNid addr 0).result with
  | none => (("", false), none)
  | some ww => ((ww.Domain, true), some (refreshGoroutine markLastUsedErr))

/-- `checkoutAddrArgs` from the source. -/
structure checkoutAddrArgs where
  NodeID : Nat
  Domain : String
  ReuseDeadline : Nat
  UpdatedAt : Nat
  deriving DecidableEq, Repr

/-- `markLastUsedArgs` from the source. -/
structure markLastUsedArgs where
  NodeID : Nat
  Addr : Nat
  Domain : String
  UpdatedAt : Nat
  deriving DecidableEq, Repr

/-- An opaque argument payload (`Args []byte`), classified by what it
JSON-decodes to: bytes that fail to decode, or bytes encoding one of the
two argument records. -/
inductive ArgBytes where
  | undecodable (msg : String)
  | checkoutArgs (a : checkoutAddrArgs)
  | markArgs (a : markLastUsedArgs)
  deriving DecidableEq, Repr

/-- `json.Unmarshal(bs, &args)` for `checkoutAddrArgs`. -/
def unmarshalCheckoutAddrArgs : ArgBytes → Except String checkoutAddrArgs
  | ArgBytes.checkoutArgs a => Except.ok a
  | ArgBytes.undecodable msg => Except.error msg
  | ArgBytes.markArgs _ => Except.error "json: cannot unmarshal"

/-- `json.Unmarshal(bs, &args)` for `markLastUsedArgs`. -/
def unmarshalMarkLastUsedArgs : ArgBytes → Except String markLastUsedArgs
  | ArgBytes.markArgs a => Except.ok a
  | ArgBytes.undecodable msg => Except.error msg
  | ArgBytes.checkoutArgs _ => Except.error "json: cannot unmarshal"

/-- `tsconsensus.CommandResult`: an opaque result payload (here, the
marshaled allocated address) and an application-level error. -/
structure CommandResult where
  Result : Option Nat := none
  Err : Option String := none
  deriving DecidableEq, Repr

/-- `executeCheckoutAddr`: decode the payload, apply, marshal the
address.  A decode failure is returned as `CommandResult.Err`; the
state mutation made by `applyCheckoutAddr` persists even when it
returns an error. -/
def executeCheckoutAddr (ipp : IPSetRanges) (bs : ArgBytes)
    (pool : PoolState) : CommandResult × PoolState :=
  match unmarshalCheckoutAddrArgs bs with
  | Except.error e => ({ Err := some e }, pool)
  | Except.ok args =>
      match applyCheckoutAddr ipp args.NodeID args.Domain
          args.ReuseDeadline args.UpdatedAt pool with
      | (Except.error e, pool') => ({ Err := some e }, pool')
      | (Except.ok addr, pool') => ({ Result := some addr }, pool')

/-- `executeMarkLastUsed`: decode the payload and apply
(`applyMarkLastUsed` always returns nil). -/
def executeMarkLastUsed (bs : ArgBytes) (pool : PoolState) :
    CommandResult × PoolState :=
  match unmarshalMarkLastUsedArgs bs with
  | Except.error e => ({ Err := some e }, pool)
  | Except.ok args =>
      ({}, applyMarkLastUsed args.NodeID args.Addr args.Domain
            args.UpdatedAt pool)

/-- A committed raft log entry's data (`l.Data`), classified by what it
JSON-decodes to: bytes that fail to decode as a `tsconsensus.Command`
envelope, or a decoded `{Name, Args}` envelope. -/
inductive LogData where
  | undecodable (msg : String)
  | command (name : String) (args : ArgBytes)
  deriving DecidableEq, Repr

/-- What one `Apply` invocation does: either the replica halts (a Go
`panic` inside `Apply`) or a `CommandResult` is produced and the replica
keeps running. -/
inductive ApplyOutcome where
  | halted (msg : String)
  | res (r : CommandResult)
  deriving DecidableEq, Repr

/-- Ambient effects a handler could, in principle, consult: wall-clock
time and randomness.  The embedding passes it to `Apply` to make the
handlers' independence from it (the determinism invariant) provable. -/
structure ApplyEnv where
  wallClock : Nat
  randomness : Nat
  deriving DecidableEq, Repr

/-- `Apply`: the raft FSM entrypoint.  An undecodable envelope panics;
a recognized command name dispatches; an unrecognized name panics. -/
def Apply (_env : ApplyEnv) (ipp : IPSetRanges) (l : LogData)
    (pool : PoolState) : ApplyOutcome × PoolState :=
  match l with
  | LogData.undecodable msg =>
      (ApplyOutcome.halted ("failed to unmarshal command: " ++ msg), pool)
  | LogData.command name args =>
      match name with
      | "checkoutAddr" =>
          let (r, p) := executeCheckoutAddr ipp args pool
          (ApplyOutcome.res r, p)
      | "markLastUsed" =>
          let (r, p) := executeMarkLastUsed args pool
          (ApplyOutcome.res r, p)
      | other => (ApplyOutcome.halted ("unrecognized command: " ++ other), pool)

/-- Replay a committed log in order from a given state; a halt (panic)
stops the replica, leaving the state as of the halt. -/
def replayLog (env : ApplyEnv) (ipp : IPSetRanges) :
    List LogData → PoolState → PoolState
  | [], pool => pool
  | l :: rest, pool =>
      match Apply env ipp l pool with
      | (ApplyOutcome.halted _, p) => p
      | (ApplyOutcome.res _, p) => replayLog env ipp rest p

/-- A well-formed state-machine command (the two recognized command
names with their decoded arguments). -/
inductive PoolCommand where
  | checkoutAddr (nid : Nat) (domain : String) (reuseDeadline updatedAt : Nat)
  | markLastUsed (nid addr : Nat) (domain : String) (updatedAt : Nat)
  deriving DecidableEq, Repr

/-- Apply one well-formed command to the pool state (the state component
of the corresponding handler). -/
def applyCommand (ipp : IPSetRanges) : PoolCommand → PoolState → PoolState
  | PoolCommand.checkoutAddr nid d rd t, pool =>
      (applyCheckoutAddr ipp nid d rd t pool).2
  | PoolCommand.markLastUsed nid a d t, pool =>
      applyMarkLastUsed nid a d t pool

/-- Apply a sequence of well-formed commands in order. -/
def applyCommands (ipp : IPSetRanges) : List PoolCommand → PoolState → PoolState
  | [], pool => pool
  | c :: rest, pool => applyCommands ipp rest (applyCommand ipp c pool)

/-- The forward/reverse bijection invariant of one peer state: every
domain mapped forward has a reverse entry naming it back. -/
def peerInvariant (ps : consensusPerPeerState) : Prop :=
  ∀ d a, Map.find ps.domainToAddr d = some a →
    ∃ ww, Map.find ps.addrToDomain a = some ww ∧ ww.Domain = d

/-- The bijection invariant over the whole pool state. -/
def poolInvariant (pool : PoolState) : Prop :=
  ∀ nid ps, Map.find pool nid = some ps → peerInvariant ps

/-- Spec-side description of one range's addresses, from `From` to `To`
inclusive, in ascending order. -/
def rangeAddrs (ip toIP : Nat) : List Nat :=
  (List.range (toIP + 1 - ip)).map (fun i => ip + i)

/-- Spec-side description of `unusedIPV4`'s search space: the addresses
of the ranges, flattened in iteration order (each range from `From` to
`To` inclusive). -/
def poolAddrs (ipset : IPSetRanges) : List Nat :=
  ipset.flatMap (fun r => rangeAddrs r.1 r.2)

/-- Spec-side eligibility of one address for (re)allocation: never
recorded in `addrToDomain`, or last used strictly before the reuse
deadline. -/
def eligibleAddr (ps : consensusPerPeerState) (reuseDeadline : Nat)
    (a : Nat) : Bool :=
  match Map.find ps.addrToDomain a with
  | none => true
  | some ww => decide (ww.LastUsed < reuseDeadline)

/-- The address component of a `unusedIPV4` result. -/
def unusedResultAddr : Except String (Nat × Bool × String) → Option Nat
  | Except.ok (a, _, _) => some a
  | Except.error _ => none

/-- Fixture: a peer state holding address 1 for domain "a" (last used at
time 0) and address 2 for domain "b" (last used at time 10). -/
def psFixture : consensusPerPeerState :=
  ⟨[("a", 1), ("b", 2)], [(1, ⟨"a", 0⟩), (2, ⟨"b", 10⟩)]⟩

/-- Fixture: a corrupted peer state whose forward entry for "d" points at
address 1 while the reverse entry for address 1 names domain "e" (the
bijection-violated shape the spec calls externally corrupted). -/
def psCorrupt : consensusPerPeerState :=
  ⟨[("d", 1)], [(1, ⟨"e", 0⟩)]⟩

/-- Fixture: a pool with one peer (id 1) whose address 1 resolves to
domain "d" with last-used time 3. -/
def poolResolvable : PoolState := [(1, ⟨[("d", 1)], [(1, ⟨"d", 3⟩)]⟩)]

namespace Map

variable {α β : Type} [DecidableEq α]

theorem find_insert_self (m : Map α β) (k : α) (v : β) :
    find (insert m k v) k = some v := by
  induction m with
  | nil => simp [insert, find]
  | cons p rest ih =>
      obtain ⟨k', v'⟩ := p
      by_cases h : k = k'
      · simp [insert, h, find]
      · simp [insert, h, find, ih, Ne.symm h]

theorem find_insert_ne (m : Map α β) (k k' : α) (v : β) (h : k' ≠ k) :
    find (insert m k v) k' = find m k' := by
  induction m with
  | nil => simp [insert, find, h]
  | cons p rest ih =>
      obtain ⟨k₀, v₀⟩ := p
      by_cases hk : k = k₀
      · subst hk
        simp [insert, find, h]
      · by_cases hk' : k' = k₀ <;> simp [insert, hk, find, hk', ih]

theorem insert_find_eq (m : Map α β) (k : α) (v : β)
    (h : find m k = some v) : insert m k v = m := by
  induction m with
  | nil => simp [find] at h
  | cons p rest ih =>
      obtain ⟨k₀, v₀⟩ := p
      by_cases hk : k = k₀
      · subst hk
        simp [find] at h
        simp [insert, h]
      · simp [find, hk] at h
        simp [insert, hk, ih h]

theorem find_erase_self (m : Map α β) (k : α) :
    find (erase m k) k = none := by
  induction m with
  | nil => simp [erase, find]
  | cons p rest ih =>
      obtain ⟨k₀, v₀⟩ := p
      by_cases hk : k₀ = k
      · simpa [erase, hk] using ih
      · simp [erase, hk, find, Ne.symm hk, ih]

theorem find_erase_ne (m : Map α β) (k k' : α) (h : k' ≠ k) :
    find (erase m k) k' = find m k' := by
  induction m with
  | nil => simp [erase, find]
  | cons p rest ih =>
      obtain ⟨k₀, v₀⟩ := p
      by_cases hk : k₀ = k
      · subst hk
        simp [erase, find, h, ih]
      · by_cases hk' : k' = k₀ <;> simp [erase, hk, find, hk', ih]

end Map

/-- C2, counterexample.  For a (peer, address) pair absent from the local
pool state at every attempt, `retryDomainLookup` makes 6 attempts (not 5)
and sleeps 100+200+400+800+1600 = 3100 time-units (not 1500) before
returning the definitive miss. -/
theorem retryDomainLookup_six_attempts_cex :
    retryDomainLookup (fun _ => emptyPool) 1 1 0
      = ⟨none, 6, 3100⟩
    ∧ (retryDomainLookup (fun _ => emptyPool) 1 1 0).attempts ≠ 5
    ∧ (retryDomainLookup (fun _ => emptyPool) 1 1 0).sleptMs ≠ 1500 := by
  have h : retryDomainLookup (fun _ => emptyPool) 1 1 0 = ⟨none, 6, 3100⟩ := by
    simp [retryDomainLookup, localLookup, Map.find, timeToWait, List.range_succ]
  refine ⟨h, ?_, ?_⟩ <;> simp [h]

/-- C2, amended.  For every lookup of a (peer, address) pair absent from
the local pool state at every attempt, the retry loop performs exactly 6
attempts in total (an initial attempt plus 5 retries), sleeping 100
time-units before the first retry and doubling each subsequent wait
(100+200+400+800+1600 = 3100 time-units of worst-case added latency),
after which — and never earlier — it returns a definitive miss. -/
theorem retryDomainLookup_miss_full_backoff (poolAt : Nat → PoolState)
    (fromNid addr : Nat)
    (h : ∀ k, localLookup (poolAt k) fromNid addr = none) :
    retryDomainLookup poolAt fromNid addr 0 = ⟨none, 6, 3100⟩ := by
  simp [retryDomainLookup, h, timeToWait, List.range_succ]

/-- Witness for the C2 amended theorem at a concrete always-missing
lookup. -/
theorem retryDomainLookup_miss_full_backoff_witness :
    retryDomainLookup (fun _ => emptyPool) 2 7 0 = ⟨none, 6, 3100⟩ :=
  retryDomainLookup_miss_full_backoff (fun _ => emptyPool) 2 7
    (fun _ => rfl)

/-- Evaluation of `DomainForIP` on the concrete resolvable fixture. -/
theorem domainForIP_poolResolvable_eval (e : Option String) :
    DomainForIP (fun _ => poolResolvable) 1 1 e
      = (("d", true), some (refreshGoroutine e)) := by
  simp [DomainForIP, retryDomainLookup, localLookup, Map.find, poolResolvable]

/-- C3, counterexample.  When the consensus submission of the
usage-refresh `markLastUsed` fails, the goroutine spawned by
`DomainForIP` panics (crashing the process): the failure escalates
beyond logging. -/
theorem domainForIP_refresh_panics_cex :
    (DomainForIP (fun _ => poolResolvable) 1 1 (some "raft failed")).2
      = some (GoroutineExit.panicked "raft failed")
    ∧ (DomainForIP (fun _ => poolResolvable) 1 1 (some "raft failed")).2
      ≠ some GoroutineExit.returned := by
  rw [domainForIP_poolResolvable_eval]
  exact ⟨rfl, by simp [refreshGoroutine]⟩

/-- C3, amended.  A failure of the asynchronously submitted
usage-refresh never propagates into or affects the read's returned
result (the `(domain, found)` pair is the same whatever the refresh
error is), but the failure is not merely logged: the refresh goroutine
panics on it. -/
theorem domainForIP_refresh_failure_isolated (poolAt : Nat → PoolState)
    (fromNid addr : Nat) (e1 e2 : Option String) (msg : String) :
    (DomainForIP poolAt fromNid addr e1).1
      = (DomainForIP poolAt fromNid addr e2).1
    ∧ ((DomainForIP poolAt fromNid addr e1).1.2 = true →
        (DomainForIP poolAt fromNid addr (some msg)).2
          = some (GoroutineExit.panicked msg)) := by
  constructor
  · cases h : (retryDomainLookup poolAt fromNid addr 0).result <;>
      simp [DomainForIP, h]
  · intro hfound
    cases h : (retryDomainLookup poolAt fromNid addr 0).result with
    | none => simp [DomainForIP, h] at hfound
    | some ww => simp [DomainForIP, h, refreshGoroutine]

/-- Witness for the C3 amended theorem at a concrete resolvable state
and failing refresh. -/
theorem domainForIP_refresh_failure_isolated_witness :
    (DomainForIP (fun _ => poolResolvable) 1 1 none).1
      = (DomainForIP (fun _ => poolResolvable) 1 1 (some "x")).1
    ∧ (DomainForIP (fun _ => poolResolvable) 1 1 (some "boom")).2
      = some (GoroutineExit.panicked "boom") :=
  ⟨(domainForIP_refresh_failure_isolated (fun _ => poolResolvable) 1 1
      none (some "x") "boom").1,
   (domainForIP_refresh_failure_isolated (fun _ => poolResolvable) 1 1
      none (some "x") "boom").2
     (by rw [domainForIP_poolResolvable_eval])⟩

/-- C9.  `applyCheckoutAddr` is not atomic on failure: for a previously
unseen peer it first stores an empty peer-state entry, and when the
allocation scan then fails with exhaustion, the returned error leaves
that empty entry in the pool state — the state changed even though the
command failed. -/
theorem checkoutAddr_exhausted_leaves_peer_entry (ipp : IPSetRanges)
    (nid : Nat) (domain : String) (rd now : Nat) (pool : PoolState)
    (hnew : Map.find pool nid = none) (e : String)
    (herr : (applyCheckoutAddr ipp nid domain rd now pool).1
      = Except.error e) :
    Map.find (applyCheckoutAddr ipp nid domain rd now pool).2 nid
      = some emptyPeerState
    ∧ (applyCheckoutAddr ipp nid domain rd now pool).2 ≠ pool := by
  have hstep : applyCheckoutAddr ipp nid domain rd now pool
      = checkoutAddrAlloc ipp nid domain rd now emptyPeerState pool := by
    simp [applyCheckoutAddr, hnew, emptyPeerState, Map.find]
  rw [hstep] at herr ⊢
  cases hscan : unusedIPV4 emptyPeerState ipp rd with
  | ok r =>
      exfalso
      obtain ⟨a, flag, pd⟩ := r
      simp [checkoutAddrAlloc, hscan] at herr
  | error e' =>
      have hsnd : (checkoutAddrAlloc ipp nid domain rd now emptyPeerState pool).2
          = Map.insert pool nid emptyPeerState := by
        simp [checkoutAddrAlloc, hscan]
      rw [hsnd]
      refine ⟨Map.find_insert_self pool nid emptyPeerState, ?_⟩
      intro hcontra
      have hfound : Map.find pool nid = some emptyPeerState := by
        conv_lhs => rw [← hcontra]
        exact Map.find_insert_self pool nid emptyPeerState
      rw [hnew] at hfound
      cases hfound

/-- Witness for C9 at a concrete unseen peer and empty address set. -/
theorem checkoutAddr_exhausted_leaves_peer_entry_witness :
    Map.find (applyCheckoutAddr [] 1 "d.example" 0 7 emptyPool).2 1
      = some emptyPeerState
    ∧ (applyCheckoutAddr [] 1 "d.example" 0 7 emptyPool).2 ≠ emptyPool :=
  checkoutAddr_exhausted_leaves_peer_entry [] 1 "d.example" 0 7 emptyPool
    rfl "ip pool exhausted" rfl

/-- C10.  `Apply` halts the replica (Go panic) on an undecodable envelope
and on an unrecognized command name; a recognized command whose argument
payload fails to decode instead yields a `CommandResult` carrying the
error, leaves the state unchanged, and replay continues with subsequent
entries (whereas a halt stops it). -/
theorem apply_halts_only_on_envelope_or_name (env : ApplyEnv)
    (ipp : IPSetRanges) (pool : PoolState) (msg name : String)
    (args : ArgBytes) :
    Apply env ipp (LogData.undecodable msg) pool
      = (ApplyOutcome.halted ("failed to unmarshal command: " ++ msg), pool)
    ∧ (name ≠ "checkoutAddr" → name ≠ "markLastUsed" →
        Apply env ipp (LogData.command name args) pool
          = (ApplyOutcome.halted ("unrecognized command: " ++ name), pool))
    ∧ (∀ m, Apply env ipp
          (LogData.command "checkoutAddr" (ArgBytes.undecodable m)) pool
          = (ApplyOutcome.res { Err := some m }, pool))
    ∧ (∀ m, Apply env ipp
          (LogData.command "markLastUsed" (ArgBytes.undecodable m)) pool
          = (ApplyOutcome.res { Err := some m }, pool))
    ∧ (∀ m rest, replayLog env ipp
          (LogData.command "checkoutAddr" (ArgBytes.undecodable m) :: rest) pool
          = replayLog env ipp rest pool)
    ∧ (∀ m rest, replayLog env ipp (LogData.undecodable m :: rest) pool
          = pool) := by
  refine ⟨rfl, ?_, ?_, ?_, ?_, ?_⟩
  · intro h1 h2
    simp [Apply, h1, h2]
  · intro m
    simp [Apply, executeCheckoutAddr, unmarshalCheckoutAddrArgs]
  · intro m
    simp [Apply, executeMarkLastUsed, unmarshalMarkLastUsedArgs]
  · intro m rest
    simp [replayLog, Apply, executeCheckoutAddr, unmarshalCheckoutAddrArgs]
  · intro m rest
    simp [replayLog, Apply]

/-- Witness for C10 at a concrete unrecognized command name. -/
theorem apply_halts_only_on_envelope_or_name_witness :
    Apply ⟨0, 0⟩ [] (LogData.command "gossip" (ArgBytes.undecodable "z"))
      emptyPool
      = (ApplyOutcome.halted ("unrecognized command: " ++ "gossip"),
          emptyPool) :=
  (apply_halts_only_on_envelope_or_name ⟨0, 0⟩ [] emptyPool "m" "gossip"
      (ArgBytes.undecodable "z")).2.1 (by decide) (by decide)

/-- C6.  `applyMarkLastUsed` is idempotent and order-tolerant: an unknown
peer, an untracked address, a mismatched domain, or a timestamp less than
or equal to the stored `LastUsed` all leave the state unchanged, and a
second application with the same or a smaller timestamp changes nothing. -/
theorem applyMarkLastUsed_idempotent (nid addr : Nat) (domain : String)
    (t : Nat) (pool : PoolState) :
    (Map.find pool nid = none →
        applyMarkLastUsed nid addr domain t pool = pool)
    ∧ (∀ ps, Map.find pool nid = some ps →
        Map.find ps.addrToDomain addr = none →
        applyMarkLastUsed nid addr domain t pool = pool)
    ∧ (∀ ps ww, Map.find pool nid = some ps →
        Map.find ps.addrToDomain addr = some ww → ww.Domain ≠ domain →
        applyMarkLastUsed nid addr domain t pool = pool)
    ∧ (∀ ps ww, Map.find pool nid = some ps →
        Map.find ps.addrToDomain addr = some ww → ww.Domain = domain →
        t ≤ ww.LastUsed →
        applyMarkLastUsed nid addr domain t pool = pool)
    ∧ (∀ t', t' ≤ t →
        applyMarkLastUsed nid addr domain t'
            (applyMarkLastUsed nid addr domain t pool)
          = applyMarkLastUsed nid addr domain t pool) := by
  refine ⟨?_, ?_, ?_, ?_, ?_⟩
  · intro h
    simp [applyMarkLastUsed, h]
  · intro ps hps hww
    simp [applyMarkLastUsed, hps, hww]
  · intro ps ww hps hww hdom
    simp [applyMarkLastUsed, hps, hww, hdom]
  · intro ps ww hps hww hdom hle
    by_cases hlt : t < ww.LastUsed
    · simp [applyMarkLastUsed, hps, hww, hdom, hlt]
    · have hupd : ({ ww with LastUsed := t } : whereWhen) = ww := by
        have hteq : t = ww.LastUsed := le_antisymm hle (not_lt.mp hlt)
        rcases ww with ⟨D, L⟩
        simpa using hteq
      simp only [applyMarkLastUsed, hps, hww]
      rw [if_neg (by simp [hdom]), if_neg hlt, hupd,
        Map.insert_find_eq ps.addrToDomain addr ww hww]
      exact Map.insert_find_eq pool nid ps hps
  · intro t' ht'
    cases hps : Map.find pool nid with
    | none => simp [applyMarkLastUsed, hps]
    | some ps =>
        cases hww : Map.find ps.addrToDomain addr with
        | none => simp [applyMarkLastUsed, hps, hww]
        | some ww =>
            by_cases hdom : ww.Domain = domain
            · by_cases hlt : t < ww.LastUsed
              · have h1 : applyMarkLastUsed nid addr domain t pool = pool := by
                  simp [applyMarkLastUsed, hps, hww, hdom, hlt]
                rw [h1]
                have hlt' : t' < ww.LastUsed := lt_of_le_of_lt ht' hlt
                simp [applyMarkLastUsed, hps, hww, hdom, hlt']
              · have hupd2 : ({ ww with LastUsed := t } : whereWhen)
                    = ⟨domain, t⟩ := by
                  rcases ww with ⟨D, L⟩
                  simpa using hdom
                have h1 : applyMarkLastUsed nid addr domain t pool
                    = Map.insert pool nid
                        ⟨ps.domainToAddr,
                          Map.insert ps.addrToDomain addr ⟨domain, t⟩⟩ := by
                  simp only [applyMarkLastUsed, hps, hww]
                  rw [if_neg (by simp [hdom]), if_neg hlt, hupd2]
                rw [h1]
                have hps' := Map.find_insert_self pool nid
                  (⟨ps.domainToAddr,
                    Map.insert ps.addrToDomain addr ⟨domain, t⟩⟩ :
                    consensusPerPeerState)
                have hww' := Map.find_insert_self ps.addrToDomain addr
                  (⟨domain, t⟩ : whereWhen)
                by_cases hlt2 : t' < t
                · simp only [applyMarkLastUsed, hps', hww']
                  rw [if_neg (by simp), if_pos hlt2]
                · have ht2 : t' = t := le_antisymm ht' (not_lt.mp hlt2)
                  subst ht2
                  simp only [applyMarkLastUsed, hps', hww']
                  rw [if_neg (by simp), if_neg hlt2,
                    Map.insert_find_eq _ _ _ hww']
                  exact Map.insert_find_eq _ _ _ hps'
            · have h1 : applyMarkLastUsed nid addr domain t pool = pool := by
                simp [applyMarkLastUsed, hps, hww, hdom]
              rw [h1]
              simp [applyMarkLastUsed, hps, hww, hdom]

/-- Witness for C6 at a concrete tracked address: a timestamp equal to
the stored one is a no-op, and a second application with a smaller
timestamp changes nothing. -/
theorem applyMarkLastUsed_idempotent_witness :
    applyMarkLastUsed 1 1 "a" 0 [(1, psFixture)] = [(1, psFixture)]
    ∧ applyMarkLastUsed 1 1 "a" 3
        (applyMarkLastUsed 1 1 "a" 7 [(1, psFixture)])
      = applyMarkLastUsed 1 1 "a" 7 [(1, psFixture)] :=
  ⟨(applyMarkLastUsed_idempotent 1 1 "a" 0 [(1, psFixture)]).2.2.2.1
      psFixture ⟨"a", 0⟩ rfl rfl rfl (by decide),
   (applyMarkLastUsed_idempotent 1 1 "a" 7 [(1, psFixture)]).2.2.2.2
      3 (by decide)⟩

/-- C7.  The command-apply logic is deterministic: `Apply` never consults
the ambient environment (wall clock, randomness), so replaying one
identical ordered log against any state — in particular against two
independent empty pool states — yields identical final states whatever
the ambient environments of the two replicas were. -/
theorem replay_deterministic (env1 env2 : ApplyEnv) (ipp : IPSetRanges)
    (entries : List LogData) :
    (∀ pool, replayLog env1 ipp entries pool = replayLog env2 ipp entries pool)
    ∧ replayLog env1 ipp entries emptyPool
      = replayLog env2 ipp entries emptyPool := by
  have hall : ∀ pool, replayLog env1 ipp entries pool
      = replayLog env2 ipp entries pool := by
    induction entries with
    | nil => intro pool; rfl
    | cons l rest ih =>
        intro pool
        have henv : Apply env2 ipp l pool = Apply env1 ipp l pool := rfl
        simp only [replayLog, henv]
        rcases hA : Apply env1 ipp l pool with ⟨outcome, p⟩
        cases outcome <;> simp [ih]
  exact ⟨hall, hall emptyPool⟩

/-- A nonempty range's address list starts at its low end. -/
theorem rangeAddrs_cons (ip toIP : Nat) (h : ¬ toIP < ip) :
    rangeAddrs ip toIP = ip :: rangeAddrs (ip + 1) toIP := by
  unfold rangeAddrs
  have h1 : toIP + 1 - ip = (toIP - ip) + 1 := by omega
  have h2 : toIP + 1 - (ip + 1) = toIP - ip := by omega
  rw [h1, h2, List.range_succ_eq_map]
  simp only [List.map_cons, List.map_map, Nat.add_zero]
  congr 1
  apply List.map_congr_left
  intro i _
  simp only [Function.comp_apply, Nat.succ_eq_add_one]
  omega

/-- Characterization of a successful inner scan: the returned address is
unrecorded (with `wasInUse = false`), or carries an expired reverse
entry (with `wasInUse = true` and the previous domain reported). -/
theorem scanRange_some (ps : consensusPerPeerState) (dl : Nat)
    (ip toIP a : Nat) (flag : Bool) (pd : String)
    (h : scanRange ps dl ip toIP = some (a, flag, pd)) :
    (Map.find ps.addrToDomain a = none ∧ flag = false ∧ pd = "")
    ∨ (∃ ww, Map.find ps.addrToDomain a = some ww ∧ ww.LastUsed < dl
        ∧ flag = true ∧ pd = ww.Domain) := by
  induction ip, toIP using scanRange.induct ps dl with
  | case1 ip toIP hlt =>
      rw [scanRange] at h
      simp [hlt] at h
  | case2 ip toIP hlt hnone =>
      rw [scanRange] at h
      simp [hlt, hnone] at h
      obtain ⟨ha, hflag, hpd⟩ := h
      subst ha
      exact Or.inl ⟨hnone, hflag, hpd.symm⟩
  | case3 ip toIP hlt ww hww hexp =>
      rw [scanRange] at h
      simp [hlt, hww, hexp] at h
      obtain ⟨ha, hflag, hpd⟩ := h
      subst ha
      exact Or.inr ⟨ww, hww, hexp, hflag, hpd.symm⟩
  | case4 ip toIP hlt ww hww hexp ih =>
      rw [scanRange] at h
      simp [hlt, hww, hexp] at h
      exact ih h

/-- The inner scan is first-fit over the range's addresses in ascending
order. -/
theorem scanRange_find (ps : consensusPerPeerState) (dl ip toIP : Nat) :
    Option.map (fun r => r.1) (scanRange ps dl ip toIP)
      = List.find? (eligibleAddr ps dl) (rangeAddrs ip toIP) := by
  induction ip, toIP using scanRange.induct ps dl with
  | case1 ip toIP hlt =>
      have hempty : rangeAddrs ip toIP = [] := by
        unfold rangeAddrs
        have : toIP + 1 - ip = 0 := by omega
        simp [this]
      rw [scanRange]
      simp [hlt, hempty]
  | case2 ip toIP hlt hnone =>
      rw [scanRange, rangeAddrs_cons ip toIP hlt]
      have helig : eligibleAddr ps dl ip = true := by
        simp [eligibleAddr, hnone]
      simp [hlt, hnone, List.find?_cons_of_pos _ helig]
  | case3 ip toIP hlt ww hww hexp =>
      rw [scanRange, rangeAddrs_cons ip toIP hlt]
      have helig : eligibleAddr ps dl ip = true := by
        simp [eligibleAddr, hww, hexp]
      simp [hlt, hww, hexp, List.find?_cons_of_pos _ helig]
  | case4 ip toIP hlt ww hww hexp ih =>
      rw [scanRange, rangeAddrs_cons ip toIP hlt]
      have helig : ¬ eligibleAddr ps dl ip = true := by
        simp [eligibleAddr, hww, hexp]
      simp only [List.find?_cons_of_neg _ helig]
      simpa [hlt, hww, hexp] using ih

/-- `unusedIPV4` is first-fit over the flattened address list. -/
theorem unusedIPV4_find (ps : consensusPerPeerState) (ipset : IPSetRanges)
    (dl : Nat) :
    unusedResultAddr (unusedIPV4 ps ipset dl)
      = List.find? (eligibleAddr ps dl) (poolAddrs ipset) := by
  induction ipset with
  | nil => rfl
  | cons r rest ih =>
      obtain ⟨lo, hi⟩ := r
      rw [unusedIPV4]
      simp only [poolAddrs, List.flatMap_cons, List.find?_append]
      rw [← (by rfl : poolAddrs rest = rest.flatMap (fun r => rangeAddrs r.1 r.2))]
      cases hs : scanRange ps dl lo hi with
      | none =>
          have hchar := scanRange_find ps dl lo hi
          rw [hs] at hchar
          rw [← hchar]
          simpa using ih
      | some res =>
          have hchar := scanRange_find ps dl lo hi
          rw [hs] at hchar
          rw [← hchar]
          simp [unusedResultAddr]

/-- Every error from `unusedIPV4` is the exhaustion error. -/
theorem unusedIPV4_error_msg (ps : consensusPerPeerState)
    (ipset : IPSetRanges) (dl : Nat) (e : String)
    (h : unusedIPV4 ps ipset dl = Except.error e) :
    e = "ip pool exhausted" := by
  induction ipset with
  | nil =>
      rw [unusedIPV4] at h
      cases h
      rfl
  | cons r rest ih =>
      obtain ⟨lo, hi⟩ := r
      rw [unusedIPV4] at h
      cases hs : scanRange ps dl lo hi with
      | none => rw [hs] at h; exact ih h
      | some res => rw [hs] at h; cases h

/-- Characterization of a successful `unusedIPV4` result. -/
theorem unusedIPV4_ok_spec (ps : consensusPerPeerState)
    (ipset : IPSetRanges) (dl a : Nat) (flag : Bool) (pd : String)
    (h : unusedIPV4 ps ipset dl = Except.ok (a, flag, pd)) :
    (Map.find ps.addrToDomain a = none ∧ flag = false ∧ pd = "")
    ∨ (∃ ww, Map.find ps.addrToDomain a = some ww ∧ ww.LastUsed < dl
        ∧ flag = true ∧ pd = ww.Domain) := by
  induction ipset with
  | nil => rw [unusedIPV4] at h; cases h
  | cons r rest ih =>
      obtain ⟨lo, hi⟩ := r
      rw [unusedIPV4] at h
      cases hs : scanRange ps dl lo hi with
      | none => rw [hs] at h; exact ih h
      | some res =>
          rw [hs] at h
          cases h
          exact scanRange_some ps dl lo hi a flag pd hs

/-- In a sorted list, `find?` returns a minimum among the matching
elements. -/
theorem find?_min_of_sorted (p : Nat → Bool) (l : List Nat) (a : Nat)
    (hs : List.Sorted (· ≤ ·) l) (h : List.find? p l = some a) :
    ∀ b ∈ l, p b = true → a ≤ b := by
  induction l with
  | nil => cases h
  | cons x xs ih =>
      rw [List.sorted_cons] at hs
      intro b hb hpb
      cases hbx : p x with
      | true =>
          rw [List.find?_cons_of_pos _ hbx] at h
          cases h
          rcases List.mem_cons.mp hb with hbeq | hbtail
          · exact le_of_eq hbeq.symm
          · exact hs.1 b hbtail
      | false =>
          rw [List.find?_cons_of_neg _ (by simp [hbx])] at h
          rcases List.mem_cons.mp hb with hbeq | hbtail
          · rw [hbeq] at hpb
            rw [hpb] at hbx
            cases hbx
          · exact ih hs.2 h b hbtail hpb

/-- C5.  The allocation scan returns the first address, in the flattened
range order, that is unrecorded or expired; when that order is sorted
ascending the returned address is the lowest eligible one; and when no
address is eligible it fails with the exhaustion error. -/
theorem unusedIPV4_first_fit (ps : consensusPerPeerState)
    (ipset : IPSetRanges) (dl : Nat) :
    unusedResultAddr (unusedIPV4 ps ipset dl)
      = List.find? (eligibleAddr ps dl) (poolAddrs ipset)
    ∧ (List.find? (eligibleAddr ps dl) (poolAddrs ipset) = none →
        unusedIPV4 ps ipset dl = Except.error "ip pool exhausted")
    ∧ (∀ a, unusedResultAddr (unusedIPV4 ps ipset dl) = some a →
        List.Sorted (· ≤ ·) (poolAddrs ipset) →
        ∀ b ∈ poolAddrs ipset, eligibleAddr ps dl b = true → a ≤ b) := by
  refine ⟨unusedIPV4_find ps ipset dl, ?_, ?_⟩
  · intro hnone
    have hres : unusedResultAddr (unusedIPV4 ps ipset dl) = none := by
      rw [unusedIPV4_find ps ipset dl, hnone]
    cases hu : unusedIPV4 ps ipset dl with
    | ok r =>
        rw [hu] at hres
        obtain ⟨a, flag, pd⟩ := r
        cases hres
    | error e =>
        rw [unusedIPV4_error_msg ps ipset dl e hu]
  · intro a ha hsorted
    rw [unusedIPV4_find ps ipset dl] at ha
    exact find?_min_of_sorted (eligibleAddr ps dl) (poolAddrs ipset) a
      hsorted ha

/-- Witness for C5 at a concrete state: address 1 is held unexpired,
address 2 is free, so the scan returns 2, the lowest eligible address. -/
theorem unusedIPV4_first_fit_witness :
    unusedResultAddr (unusedIPV4 ⟨[("a", 1)], [(1, ⟨"a", 3⟩)]⟩ [(1, 2)] 0)
      = some 2
    ∧ (2 : Nat) ≤ 2 :=
  ⟨((unusedIPV4_first_fit ⟨[("a", 1)], [(1, ⟨"a", 3⟩)]⟩ [(1, 2)] 0).1).trans
      (by decide),
   (unusedIPV4_first_fit ⟨[("a", 1)], [(1, ⟨"a", 3⟩)]⟩ [(1, 2)] 0).2.2 2
      (by rw [(unusedIPV4_first_fit ⟨[("a", 1)], [(1, ⟨"a", 3⟩)]⟩
            [(1, 2)] 0).1]; decide)
      (by decide)
      2 (by decide) (by decide)⟩

/-- Shape of `applyCheckoutAddr` for an unseen peer: it allocates against
a freshly created empty peer state. -/
theorem applyCheckoutAddr_eq_alloc_of_no_peer (ipp : IPSetRanges)
    (nid : Nat) (domain : String) (rd now : Nat) (pool : PoolState)
    (hfind : Map.find pool nid = none) :
    applyCheckoutAddr ipp nid domain rd now pool
      = checkoutAddrAlloc ipp nid domain rd now emptyPeerState pool := by
  simp [applyCheckoutAddr, hfind, emptyPeerState, Map.find]

/-- Shape of `applyCheckoutAddr` when the domain has no forward entry:
it allocates. -/
theorem applyCheckoutAddr_eq_alloc_of_fwd_none (ipp : IPSetRanges)
    (nid : Nat) (domain : String) (rd now : Nat) (pool : PoolState)
    (ps : consensusPerPeerState)
    (hfind : Map.find pool nid = some ps)
    (hfwd : Map.find ps.domainToAddr domain = none) :
    applyCheckoutAddr ipp nid domain rd now pool
      = checkoutAddrAlloc ipp nid domain rd now ps pool := by
  simp [applyCheckoutAddr, hfind, hfwd]

/-- Shape of `applyCheckoutAddr` when the forward entry's address has no
reverse entry (the "data out of sync" case): it allocates. -/
theorem applyCheckoutAddr_eq_alloc_of_rev_none (ipp : IPSetRanges)
    (nid : Nat) (domain : String) (rd now : Nat) (pool : PoolState)
    (ps : consensusPerPeerState) (a : Nat)
    (hfind : Map.find pool nid = some ps)
    (hfwd : Map.find ps.domainToAddr domain = some a)
    (hrev : Map.find ps.addrToDomain a = none) :
    applyCheckoutAddr ipp nid domain rd now pool
      = checkoutAddrAlloc ipp nid domain rd now ps pool := by
  simp [applyCheckoutAddr, hfind, hfwd, hrev]

/-- Shape of `applyCheckoutAddr` on the fast path: whenever the forward
entry's address has any reverse entry at all, that address is returned
with only its `LastUsed` refreshed — the reverse entry's domain is kept
as it was. -/
theorem applyCheckoutAddr_fastpath_eq (ipp : IPSetRanges) (nid : Nat)
    (domain : String) (rd now : Nat) (pool : PoolState)
    (ps : consensusPerPeerState) (a : Nat) (ww : whereWhen)
    (hfind : Map.find pool nid = some ps)
    (hfwd : Map.find ps.domainToAddr domain = some a)
    (hrev : Map.find ps.addrToDomain a = some ww) :
    applyCheckoutAddr ipp nid domain rd now pool
      = (Except.ok a, Map.insert pool nid
          ⟨ps.domainToAddr,
            Map.insert ps.addrToDomain a ⟨ww.Domain, now⟩⟩) := by
  simp [applyCheckoutAddr, hfind, hfwd, hrev]

/-- C4, counterexample.  On the corrupted state where `domainToAddr["d"]`
is address 1 but `addrToDomain[1]` names domain "e", `applyCheckoutAddr`
still takes the fast path: it returns address 1 and leaves the reverse
entry's domain as "e", whereas the claimed fall-through to allocation
would have produced the exhaustion error here (address 1 being the whole
pool and unexpired). -/
theorem checkoutAddr_fastpath_ignores_domain_cex :
    (applyCheckoutAddr [(1, 1)] 1 "d" 0 7 [(1, psCorrupt)]).1 = Except.ok 1
    ∧ Map.find (applyCheckoutAddr [(1, 1)] 1 "d" 0 7 [(1, psCorrupt)]).2 1
      = some ⟨[("d", 1)], [(1, ⟨"e", 7⟩)]⟩
    ∧ checkoutAddrAlloc [(1, 1)] 1 "d" 0 7 psCorrupt [(1, psCorrupt)]
      = (Except.error "ip pool exhausted", [(1, psCorrupt)]) := by
  refine ⟨rfl, rfl, ?_⟩
  have hscan : scanRange psCorrupt 0 1 1 = none := by
    rw [scanRange]
    simp only [psCorrupt, Map.find]
    rw [scanRange]
    simp
  have hu : unusedIPV4 psCorrupt [(1, 1)] 0
      = Except.error "ip pool exhausted" := by
    rw [unusedIPV4, hscan]
    rfl
  unfold checkoutAddrAlloc
  rw [hu]
  rfl

/-- C4, amended.  The fast path is taken exactly when
`domainToAddr[domain]` exists and its address has any reverse entry in
`addrToDomain`, regardless of which domain that reverse entry names (the
entry's domain is preserved, only `lastUsed` is refreshed); the engine
falls through to a fresh allocation scan only when the reverse entry is
missing. -/
theorem checkoutAddr_fastpath_iff_reverse_present (ipp : IPSetRanges)
    (nid : Nat) (domain : String) (rd now : Nat) (pool : PoolState)
    (ps : consensusPerPeerState) (a : Nat)
    (hps : Map.find pool nid = some ps)
    (hfwd : Map.find ps.domainToAddr domain = some a) :
    (∀ ww, Map.find ps.addrToDomain a = some ww →
        applyCheckoutAddr ipp nid domain rd now pool
          = (Except.ok a, Map.insert pool nid
              ⟨ps.domainToAddr,
                Map.insert ps.addrToDomain a ⟨ww.Domain, now⟩⟩))
    ∧ (Map.find ps.addrToDomain a = none →
        applyCheckoutAddr ipp nid domain rd now pool
          = checkoutAddrAlloc ipp nid domain rd now ps pool) :=
  ⟨fun ww hrev => applyCheckoutAddr_fastpath_eq ipp nid domain rd now pool
      ps a ww hps hfwd hrev,
   fun hrev => applyCheckoutAddr_eq_alloc_of_rev_none ipp nid domain rd now
      pool ps a hps hfwd hrev⟩

/-- Witness for the C4 amended theorem at a concrete healthy state. -/
theorem checkoutAddr_fastpath_iff_reverse_present_witness :
    applyCheckoutAddr [(1, 2)] 1 "a" 5 20 [(1, psFixture)]
      = (Except.ok 1, Map.insert [(1, psFixture)] 1
          ⟨psFixture.domainToAddr,
            Map.insert psFixture.addrToDomain 1 ⟨"a", 20⟩⟩) :=
  (checkoutAddr_fastpath_iff_reverse_present [(1, 2)] 1 "a" 5 20
      [(1, psFixture)] psFixture 1 rfl rfl).1 ⟨"a", 0⟩ rfl

/-- Inserting a peer state that satisfies the invariant preserves the
pool invariant. -/
theorem poolInvariant_insert (pool : PoolState) (nid : Nat)
    (ps : consensusPerPeerState) (hpool : poolInvariant pool)
    (hps : peerInvariant ps) : poolInvariant (Map.insert pool nid ps) := by
  intro nid' ps' hfind
  by_cases hn : nid' = nid
  · subst hn
    rw [Map.find_insert_self] at hfind
    cases hfind
    exact hps
  · rw [Map.find_insert_ne _ _ _ _ hn] at hfind
    exact hpool nid' ps' hfind

/-- Allocating a never-recorded address to a domain preserves the peer
invariant. -/
theorem peerInvariant_alloc_fresh (ps : consensusPerPeerState)
    (domain : String) (addr now : Nat) (hps : peerInvariant ps)
    (hnone : Map.find ps.addrToDomain addr = none) :
    peerInvariant ⟨Map.insert ps.domainToAddr domain addr,
      Map.insert ps.addrToDomain addr ⟨domain, now⟩⟩ := by
  intro d a hfwd
  by_cases hd : d = domain
  · subst hd
    rw [Map.find_insert_self] at hfwd
    cases hfwd
    exact ⟨⟨d, now⟩, Map.find_insert_self _ _ _, rfl⟩
  · rw [Map.find_insert_ne _ _ _ _ hd] at hfwd
    by_cases ha : a = addr
    · subst ha
      obtain ⟨ww, hww, _⟩ := hps d a hfwd
      rw [hnone] at hww
      cases hww
    · obtain ⟨ww, hww, hdom⟩ := hps d a hfwd
      refine ⟨ww, ?_, hdom⟩
      rw [Map.find_insert_ne _ _ _ _ ha]
      exact hww

/-- Reassigning an expired address (whose reverse entry named
`prevDomain`) to a new domain, while deleting `prevDomain`'s forward
entry, preserves the peer invariant. -/
theorem peerInvariant_alloc_reuse (ps : consensusPerPeerState)
    (domain : String) (addr now : Nat) (prevDomain : String)
    (hps : peerInvariant ps)
    (hprev : ∃ ww, Map.find ps.addrToDomain addr = some ww
      ∧ ww.Domain = prevDomain) :
    peerInvariant ⟨Map.erase (Map.insert ps.domainToAddr domain addr)
        prevDomain,
      Map.insert ps.addrToDomain addr ⟨domain, now⟩⟩ := by
  intro d a hfwd
  by_cases hdprev : d = prevDomain
  · subst hdprev
    rw [Map.find_erase_self] at hfwd
    cases hfwd
  · rw [Map.find_erase_ne _ _ _ hdprev] at hfwd
    by_cases hd : d = domain
    · subst hd
      rw [Map.find_insert_self] at hfwd
      cases hfwd
      exact ⟨⟨d, now⟩, Map.find_insert_self _ _ _, rfl⟩
    · rw [Map.find_insert_ne _ _ _ _ hd] at hfwd
      by_cases ha : a = addr
      · subst ha
        obtain ⟨ww, hww, hdom⟩ := hps d a hfwd
        obtain ⟨wwP, hwwP, hdomP⟩ := hprev
        rw [hww] at hwwP
        cases hwwP
        exact absurd (hdom ▸ hdomP) hdprev
      · obtain ⟨ww, hww, hdom⟩ := hps d a hfwd
        refine ⟨ww, ?_, hdom⟩
        rw [Map.find_insert_ne _ _ _ _ ha]
        exact hww

/-- The allocation tail preserves the pool invariant. -/
theorem checkoutAddrAlloc_preserves (ipp : IPSetRanges) (nid : Nat)
    (domain : String) (rd now : Nat) (ps : consensusPerPeerState)
    (pool : PoolState) (hps : peerInvariant ps)
    (hpool : poolInvariant pool) :
    poolInvariant (checkoutAddrAlloc ipp nid domain rd now ps pool).2 := by
  cases hscan : unusedIPV4 ps ipp rd with
  | error e =>
      have h2 : (checkoutAddrAlloc ipp nid domain rd now ps pool).2
          = Map.insert pool nid ps := by
        simp [checkoutAddrAlloc, hscan]
      rw [h2]
      exact poolInvariant_insert pool nid ps hpool hps
  | ok r =>
      obtain ⟨addr, wasInUse, prevDomain⟩ := r
      cases wasInUse with
      | false =>
          have h2 : (checkoutAddrAlloc ipp nid domain rd now ps pool).2
              = Map.insert pool nid
                  ⟨Map.insert ps.domainToAddr domain addr,
                    Map.insert ps.addrToDomain addr ⟨domain, now⟩⟩ := by
            simp [checkoutAddrAlloc, hscan]
          rw [h2]
          apply poolInvariant_insert pool nid _ hpool
          have hchar := unusedIPV4_ok_spec ps ipp rd addr false prevDomain
            hscan
          rcases hchar with ⟨hnone, _, _⟩ | ⟨ww, _, _, hflag, _⟩
          · exact peerInvariant_alloc_fresh ps domain addr now hps hnone
          · cases hflag
      | true =>
          have h2 : (checkoutAddrAlloc ipp nid domain rd now ps pool).2
              = Map.insert pool nid
                  ⟨Map.erase (Map.insert ps.domainToAddr domain addr)
                      prevDomain,
                    Map.insert ps.addrToDomain addr ⟨domain, now⟩⟩ := by
            simp [checkoutAddrAlloc, hscan]
          rw [h2]
          apply poolInvariant_insert pool nid _ hpool
          have hchar := unusedIPV4_ok_spec ps ipp rd addr true prevDomain
            hscan
          rcases hchar with ⟨_, hflag, _⟩ | ⟨ww, hww, _, _, hpd⟩
          · cases hflag
          · exact peerInvariant_alloc_reuse ps domain addr now prevDomain
              hps ⟨ww, hww, hpd.symm⟩

/-- `applyCheckoutAddr` preserves the pool invariant. -/
theorem applyCheckoutAddr_preserves (ipp : IPSetRanges) (nid : Nat)
    (domain : String) (rd now : Nat) (pool : PoolState)
    (hpool : poolInvariant pool) :
    poolInvariant (applyCheckoutAddr ipp nid domain rd now pool).2 := by
  cases hfind : Map.find pool nid with
  | none =>
      rw [applyCheckoutAddr_eq_alloc_of_no_peer ipp nid domain rd now pool
        hfind]
      exact checkoutAddrAlloc_preserves ipp nid domain rd now emptyPeerState
        pool (fun d a h => by cases h) hpool
  | some ps =>
      have hpsInv := hpool nid ps hfind
      cases hfwd : Map.find ps.domainToAddr domain with
      | none =>
          rw [applyCheckoutAddr_eq_alloc_of_fwd_none ipp nid domain rd now
            pool ps hfind hfwd]
          exact checkoutAddrAlloc_preserves ipp nid domain rd now ps pool
            hpsInv hpool
      | some existing =>
          cases hrev : Map.find ps.addrToDomain existing with
          | none =>
              rw [applyCheckoutAddr_eq_alloc_of_rev_none ipp nid domain rd
                now pool ps existing hfind hfwd hrev]
              exact checkoutAddrAlloc_preserves ipp nid domain rd now ps
                pool hpsInv hpool
          | some ww =>
              rw [applyCheckoutAddr_fastpath_eq ipp nid domain rd now pool
                ps existing ww hfind hfwd hrev]
              apply poolInvariant_insert pool nid _ hpool
              intro d a hfwd'
              by_cases ha : a = existing
              · subst ha
                obtain ⟨ww₀, hww₀, hdom₀⟩ := hpsInv d a hfwd'
                rw [hrev] at hww₀
                cases hww₀
                exact ⟨⟨ww.Domain, now⟩, Map.find_insert_self _ _ _, hdom₀⟩
              · obtain ⟨ww₀, hww₀, hdom₀⟩ := hpsInv d a hfwd'
                refine ⟨ww₀, ?_, hdom₀⟩
                rw [Map.find_insert_ne _ _ _ _ ha]
                exact hww₀

/-- `applyMarkLastUsed` preserves the pool invariant. -/
theorem applyMarkLastUsed_preserves (nid addr : Nat) (domain : String)
    (t : Nat) (pool : PoolState) (hpool : poolInvariant pool) :
    poolInvariant (applyMarkLastUsed nid addr domain t pool) := by
  cases hfind : Map.find pool nid with
  | none => simpa [applyMarkLastUsed, hfind] using hpool
  | some ps =>
      have hpsInv := hpool nid ps hfind
      cases hrev : Map.find ps.addrToDomain addr with
      | none => simpa [applyMarkLastUsed, hfind, hrev] using hpool
      | some ww =>
          by_cases hdom : ww.Domain = domain
          · by_cases hlt : t < ww.LastUsed
            · simpa [applyMarkLastUsed, hfind, hrev, hdom, hlt] using hpool
            · have hupd : applyMarkLastUsed nid addr domain t pool
                  = Map.insert pool nid
                      ⟨ps.domainToAddr,
                        Map.insert ps.addrToDomain addr
                          ⟨ww.Domain, t⟩⟩ := by
                simp only [applyMarkLastUsed, hfind, hrev]
                rw [if_neg (by simp [hdom]), if_neg hlt]
              rw [hupd]
              apply poolInvariant_insert pool nid _ hpool
              intro d a hfwd'
              by_cases ha : a = addr
              · subst ha
                obtain ⟨ww₀, hww₀, hdom₀⟩ := hpsInv d a hfwd'
                rw [hrev] at hww₀
                cases hww₀
                exact ⟨⟨ww.Domain, t⟩, Map.find_insert_self _ _ _, hdom₀⟩
              · obtain ⟨ww₀, hww₀, hdom₀⟩ := hpsInv d a hfwd'
                refine ⟨ww₀, ?_, hdom₀⟩
                rw [Map.find_insert_ne _ _ _ _ ha]
                exact hww₀
          · simpa [applyMarkLastUsed, hfind, hrev, hdom] using hpool

/-- One well-formed command preserves the pool invariant. -/
theorem applyCommand_preserves (ipp : IPSetRanges) (c : PoolCommand)
    (pool : PoolState) (hpool : poolInvariant pool) :
    poolInvariant (applyCommand ipp c pool) := by
  cases c with
  | checkoutAddr nid d rd t =>
      exact applyCheckoutAddr_preserves ipp nid d rd t pool hpool
  | markLastUsed nid a d t =>
      exact applyMarkLastUsed_preserves nid a d t pool hpool

/-- A command sequence preserves the pool invariant. -/
theorem applyCommands_preserves (ipp : IPSetRanges)
    (cmds : List PoolCommand) :
    ∀ pool, poolInvariant pool →
      poolInvariant (applyCommands ipp cmds pool) := by
  induction cmds with
  | nil => intro pool h; exact h
  | cons c rest ih =>
      intro pool h
      exact ih (applyCommand ipp c pool) (applyCommand_preserves ipp c pool h)

/-- C1.  After any sequence of checkout/mark command applications from
the empty pool state, every peer state satisfies the bijection
invariant: every domain with a forward entry has a reverse entry for
that address naming the same domain. -/
theorem bijection_invariant (ipp : IPSetRanges) (cmds : List PoolCommand)
    (nid : Nat) (ps : consensusPerPeerState) (d : String) (a : Nat)
    (hps : Map.find (applyCommands ipp cmds emptyPool) nid = some ps)
    (hfwd : Map.find ps.domainToAddr d = some a) :
    ∃ ww, Map.find ps.addrToDomain a = some ww ∧ ww.Domain = d :=
  applyCommands_preserves ipp cmds emptyPool
    (fun _ _ h => by cases h) nid ps hps d a hfwd

/-- Witness for C1 after one concrete checkout from the empty pool. -/
theorem bijection_invariant_witness :
    ∃ ww, Map.find
        (⟨[("a", 1)], [(1, ⟨"a", 10⟩)]⟩ :
          consensusPerPeerState).addrToDomain 1 = some ww
      ∧ ww.Domain = "a" :=
  bijection_invariant [(1, 2)] [PoolCommand.checkoutAddr 1 "a" 0 10] 1
    ⟨[("a", 1)], [(1, ⟨"a", 10⟩)]⟩ "a" 1
    (by simp [applyCommands, applyCommand, applyCheckoutAddr,
      checkoutAddrAlloc, unusedIPV4, scanRange, emptyPool, emptyPeerState,
      Map.find, Map.insert])
    rfl

/-- If exactly one element of a list satisfies the predicate, `find?`
returns it. -/
theorem find?_eq_of_unique (p : Nat → Bool) (l : List Nat) (x : Nat)
    (hx : x ∈ l) (hpx : p x = true)
    (hothers : ∀ b ∈ l, b ≠ x → p b = false) :
    List.find? p l = some x := by
  induction l with
  | nil => cases hx
  | cons y ys ih =>
      by_cases hyx : y = x
      · subst hyx
        exact List.find?_cons_of_pos ys hpx
      · have hpy : p y = false :=
          hothers y (List.mem_cons_self y ys) hyx
        rw [List.find?_cons_of_neg ys (by simp [hpy])]
        have hxys : x ∈ ys := by
          rcases List.mem_cons.mp hx with h | h
          · exact absurd h.symm hyx
          · exact h
        exact ih hxys fun b hb hbx =>
          hothers b (List.mem_cons_of_mem y hb) hbx

/-- C8.  Reuse correctness: when address `X` is expired, every other
address is ineligible, and domain `d` has no forward entry, a checkout
for `d` returns `X`, records `domainToAddr[d] = X`, deletes the expired
previous domain's forward entry, and overwrites `addrToDomain[X]` with
`{d, now}` — so resolving `X` afterwards yields `d`, not the old
domain. -/
theorem checkoutAddr_reuse (ipp : IPSetRanges) (nid : Nat)
    (pool : PoolState) (ps : consensusPerPeerState) (d dOld : String)
    (X : Nat) (wwX : whereWhen) (dl now : Nat)
    (hps : Map.find pool nid = some ps)
    (hfwd : Map.find ps.domainToAddr d = none)
    (hX : Map.find ps.addrToDomain X = some wwX)
    (hexp : wwX.LastUsed < dl)
    (hdomX : wwX.Domain = dOld)
    (hne : dOld ≠ d)
    (hmem : X ∈ poolAddrs ipp)
    (hothers : ∀ b ∈ poolAddrs ipp, b ≠ X → eligibleAddr ps dl b = false) :
    (applyCheckoutAddr ipp nid d dl now pool).1 = Except.ok X
    ∧ ∃ ps', Map.find (applyCheckoutAddr ipp nid d dl now pool).2 nid
        = some ps'
      ∧ Map.find ps'.domainToAddr d = some X
      ∧ Map.find ps'.domainToAddr dOld = none
      ∧ Map.find ps'.addrToDomain X = some ⟨d, now⟩ := by
  have heligX : eligibleAddr ps dl X = true := by
    simp [eligibleAddr, hX, hexp]
  have hfindX : List.find? (eligibleAddr ps dl) (poolAddrs ipp)
      = some X :=
    find?_eq_of_unique (eligibleAddr ps dl) (poolAddrs ipp) X hmem heligX
      hothers
  have hresX : unusedResultAddr (unusedIPV4 ps ipp dl) = some X := by
    rw [unusedIPV4_find ps ipp dl]
    exact hfindX
  obtain ⟨flag, pd, hscan⟩ :
      ∃ flag pd, unusedIPV4 ps ipp dl = Except.ok (X, flag, pd) := by
    cases hu : unusedIPV4 ps ipp dl with
    | error e => rw [hu] at hresX; cases hresX
    | ok r =>
        obtain ⟨a, flag, pd⟩ := r
        rw [hu] at hresX
        cases hresX
        exact ⟨flag, pd, rfl⟩
  have hchar := unusedIPV4_ok_spec ps ipp dl X flag pd hscan
  have hscan' : unusedIPV4 ps ipp dl = Except.ok (X, true, dOld) := by
    rcases hchar with ⟨hnone, _, _⟩ | ⟨ww, hww, _, hflag, hpd⟩
    · rw [hX] at hnone; cases hnone
    · rw [hX] at hww
      cases hww
      rw [hflag, hpd, hdomX] at hscan
      exact hscan
  have hstep := applyCheckoutAddr_eq_alloc_of_fwd_none ipp nid d dl now
    pool ps hps hfwd
  have halloc : checkoutAddrAlloc ipp nid d dl now ps pool
      = (Except.ok X, Map.insert pool nid
          ⟨Map.erase (Map.insert ps.domainToAddr d X) dOld,
            Map.insert ps.addrToDomain X ⟨d, now⟩⟩) := by
    simp [checkoutAddrAlloc, hscan']
  rw [hstep, halloc]
  refine ⟨rfl, ⟨_, Map.find_insert_self _ _ _, ?_, ?_, ?_⟩⟩
  · rw [Map.find_erase_ne _ _ _ (Ne.symm hne)]
    exact Map.find_insert_self _ _ _
  · exact Map.find_erase_self _ _
  · exact Map.find_insert_self _ _ _

/-- Witness for C8: pool {1, 2}; address 1 held by "a" expired, address 2
held by "b" unexpired; checking out "c" reclaims address 1. -/
theorem checkoutAddr_reuse_witness :
    (applyCheckoutAddr [(1, 2)] 1 "c" 5 20 [(1, psFixture)]).1
      = Except.ok 1
    ∧ ∃ ps', Map.find
          (applyCheckoutAddr [(1, 2)] 1 "c" 5 20 [(1, psFixture)]).2 1
        = some ps'
      ∧ Map.find ps'.domainToAddr "c" = some 1
      ∧ Map.find ps'.domainToAddr "a" = none
      ∧ Map.find ps'.addrToDomain 1 = some ⟨"c", 20⟩ :=
  checkoutAddr_reuse [(1, 2)] 1 [(1, psFixture)] psFixture "c" "a" 1
    ⟨"a", 0⟩ 5 20 rfl rfl rfl (by decide) rfl (by decide) (by decide)
    (by decide)

end IPPool
